import Mathlib

/-!
# Verification of the paged VSO-Hash implementation

A shallow embedding of `vso_hash.go` (package `vsohash`): the paged
BuildXL VSO-Hash construction built on SHA-256.  Bytes are modelled as
`Nat` (values below 256 in all byte-valued positions), byte strings as
`List Nat`, and the hasher state as a structure mirroring the Go struct
`vsoHash`.  The worker pool delivers each page digest through a
single-producer single-consumer channel that is resolved strictly in
submission order, so the pending `pageHashes` channels are modelled by
the page digests they will carry, in the same order.
-/

set_option maxRecDepth 8192

namespace vsohash

/-! ## The digest primitive

`crypto/sha256` from the Go standard library, i.e. FIPS 180-4 SHA-256,
embedded as an executable function on byte lists. -/

/-- Reduce modulo 2^32 (all SHA-256 word arithmetic is 32-bit). -/
def w32 (n : Nat) : Nat := n % 4294967296

/-- Rotate a 32-bit word right by `n` bits. -/
def rotr (n x : Nat) : Nat := w32 ((x >>> n) ||| (x <<< (32 - n)))

def bigSigma0 (x : Nat) : Nat := rotr 2 x ^^^ rotr 13 x ^^^ rotr 22 x

def bigSigma1 (x : Nat) : Nat := rotr 6 x ^^^ rotr 11 x ^^^ rotr 25 x

def smallSigma0 (x : Nat) : Nat := rotr 7 x ^^^ rotr 18 x ^^^ (x >>> 3)

def smallSigma1 (x : Nat) : Nat := rotr 17 x ^^^ rotr 19 x ^^^ (x >>> 10)

/-- SHA-256 choice function; complement of `x` is xor with the 32-bit mask. -/
def ch (x y z : Nat) : Nat := (x &&& y) ^^^ ((x ^^^ 4294967295) &&& z)

def maj (x y z : Nat) : Nat := (x &&& y) ^^^ (x &&& z) ^^^ (y &&& z)

/-- The 64 SHA-256 round constants. -/
def K : List Nat :=
  [1116352408, 1899447441, 3049323471, 3921009573,
   961987163, 1508970993, 2453635748, 2870763221,
   3624381080, 310598401, 607225278, 1426881987,
   1925078388, 2162078206, 2614888103, 3248222580,
   3835390401, 4022224774, 264347078, 604807628,
   770255983, 1249150122, 1555081692, 1996064986,
   2554220882, 2821834349, 2952996808, 3210313671,
   3336571891, 3584528711, 113926993, 338241895,
   666307205, 773529912, 1294757372, 1396182291,
   1695183700, 1986661051, 2177026350, 2456956037,
   2730485921, 2820302411, 3259730800, 3345764771,
   3516065817, 3600352804, 4094571909, 275423344,
   430227734, 506948616, 659060556, 883997877,
   958139571, 1322822218, 1537002063, 1747873779,
   1955562222, 2024104815, 2227730452, 2361852424,
   2428436474, 2756734187, 3204031479, 3329325298]

/-- SHA-256 working state: eight 32-bit words. -/
structure SHAState where
  a : Nat
  b : Nat
  c : Nat
  d : Nat
  e : Nat
  f : Nat
  g : Nat
  h : Nat
deriving DecidableEq

/-- The SHA-256 initial hash value. -/
def initSHA : SHAState where
  a := 1779033703
  b := 3144134277
  c := 1013904242
  d := 2773480762
  e := 1359893119
  f := 2600822924
  g := 528734635
  h := 1541459225

/-- Big-endian 64-bit encoding of the message bit length. -/
def lenBytes (n : Nat) : List Nat :=
  [(n >>> 56) % 256, (n >>> 48) % 256, (n >>> 40) % 256, (n >>> 32) % 256,
   (n >>> 24) % 256, (n >>> 16) % 256, (n >>> 8) % 256, n % 256]

/-- SHA-256 padding for a message of `len` bytes: `0x80`, zeros to 56 mod 64,
then the bit length in 8 big-endian bytes. -/
def padBytes (len : Nat) : List Nat :=
  0x80 :: List.replicate ((64 - ((len + 9) % 64)) % 64) 0 ++ lenBytes (8 * len)

/-- Big-endian 32-bit words from a byte list (groups of four). -/
def toWords : List Nat → List Nat
  | b0 :: b1 :: b2 :: b3 :: rest =>
      (((b0 % 256) <<< 24) + ((b1 % 256) <<< 16) + ((b2 % 256) <<< 8) + (b3 % 256)) :: toWords rest
  | _ => []

/-- One new message-schedule word from the reversed schedule so far:
`rev.getD 1` is W(i-2), `rev.getD 6` is W(i-7), `rev.getD 14` is W(i-15),
`rev.getD 15` is W(i-16). -/
def nextW (rev : List Nat) : Nat :=
  w32 (smallSigma1 (rev.getD 1 0) + rev.getD 6 0 + smallSigma0 (rev.getD 14 0) + rev.getD 15 0)

/-- Extend the (reversed) message schedule by `n` words. -/
def extendW : Nat → List Nat → List Nat
  | 0, rev => rev
  | n + 1, rev => extendW n (nextW rev :: rev)

/-- One SHA-256 compression round with round constant and schedule word `kw`. -/
def shaRound (s : SHAState) (kw : Nat × Nat) : SHAState :=
  let t1 := w32 (s.h + bigSigma1 s.e + ch s.e s.f s.g + kw.1 + kw.2)
  let t2 := w32 (bigSigma0 s.a + maj s.a s.b s.c)
  ⟨w32 (t1 + t2), s.a, s.b, s.c, w32 (s.d + t1), s.e, s.f, s.g⟩

/-- Compress one 64-byte chunk into the running hash state. -/
def compressChunk (h0 : SHAState) (chunk : List Nat) : SHAState :=
  let w := (extendW 48 (toWords chunk).reverse).reverse
  let s := (K.zip w).foldl shaRound h0
  ⟨w32 (h0.a + s.a), w32 (h0.b + s.b), w32 (h0.c + s.c), w32 (h0.d + s.d),
   w32 (h0.e + s.e), w32 (h0.f + s.f), w32 (h0.g + s.g), w32 (h0.h + s.h)⟩

/-- Split into 64-byte chunks; the fuel argument (any bound on the list length)
keeps the recursion structural. -/
def chunksAux : Nat → List Nat → List (List Nat)
  | 0, _ => []
  | _ + 1, [] => []
  | fuel + 1, l => l.take 64 :: chunksAux fuel (l.drop 64)

/-- Big-endian bytes of one 32-bit word. -/
def wordBytes (x : Nat) : List Nat :=
  [(x >>> 24) % 256, (x >>> 16) % 256, (x >>> 8) % 256, x % 256]

/-- FIPS 180-4 SHA-256 of a byte list, as Go's `sha256.Sum256`. -/
def sha256 (msg : List Nat) : List Nat :=
  let padded := msg ++ padBytes msg.length
  let s := (chunksAux padded.length padded).foldl compressChunk initSHA
  wordBytes s.a ++ wordBytes s.b ++ wordBytes s.c ++ wordBytes s.d ++
  wordBytes s.e ++ wordBytes s.f ++ wordBytes s.g ++ wordBytes s.h

example : sha256 [] =
    [0xe3, 0xb0, 0xc4, 0x42, 0x98, 0xfc, 0x1c, 0x14, 0x9a, 0xfb, 0xf4, 0xc8, 0x99, 0x6f, 0xb9, 0x24,
     0x27, 0xae, 0x41, 0xe4, 0x64, 0x9b, 0x93, 0x4c, 0xa4, 0x95, 0x99, 0x1b, 0x78, 0x52, 0xb8, 0x55] := by
  decide

example : sha256 [0] =
    [0x6e, 0x34, 0x0b, 0x9c, 0xff, 0xb3, 0x7a, 0x98, 0x9c, 0xa5, 0x44, 0xe6, 0xbb, 0x78, 0x0a, 0x2c,
     0x78, 0x90, 0x1d, 0x3f, 0xb3, 0x37, 0x38, 0x76, 0x85, 0x11, 0xa3, 0x06, 0x17, 0xaf, 0xa0, 0x1d] := by
  decide

/-! ## Constants of `vso_hash.go` -/

/-- `Size`: the number of bytes of the output hash (`sha256.Size + 1`). -/
def Size : Nat := 32 + 1

/-- `BlockSize`: the size of the VSO-Hash blocks, always 2MB. -/
def BlockSize : Nat := 2 * 1024 * 1024

/-- `PageSize`: the size of the pages within each block, always 64kb. -/
def PageSize : Nat := 64 * 1024

/-- `pagesPerBlock = BlockSize / PageSize`. -/
def pagesPerBlock : Nat := BlockSize / PageSize

/-- The seed literal `"VSO Content Identifier Seed"`. -/
def seed : String := "VSO Content Identifier Seed"

/-- The seed literal as bytes. -/
def seedBytes : List Nat := seed.toList.map Char.toNat

/-! ## The hasher state

The Go struct `vsoHash`.  The `tasks` channel and the worker goroutines
only carry `sha256` computations of submitted pages back to the driver;
each entry of `pageHashes` is a single-producer single-consumer channel
holding exactly the SHA-256 of the submitted page, and `finishBlock`
resolves them strictly in submission order, so each pending channel is
modelled by the 32-byte digest it will deliver. -/

structure VsoHash where
  /-- The running buffer of the current page. -/
  buffer : List Nat
  /-- The pending page-hash channels, modelled by the digests they carry. -/
  pageHashes : List (List Nat)
  /-- The current blob id. -/
  blobID : List Nat
deriving DecidableEq

/-- The state of a freshly constructed hasher: all three buffers empty. -/
def initState : VsoHash := ⟨[], [], []⟩

/-- `NewParallel`: constructing with non-positive parallelism panics
(modelled as `none`); otherwise the fresh state is returned.  The
parallelism value only sizes the task channel and the worker-goroutine
pool, which the state model abstracts away. -/
def NewParallel (parallelism : Int) : Option VsoHash :=
  if parallelism ≤ 0 then none else some initState

/-- `updateBlobID`: fold one block digest into the running blob id. -/
def updateBlobID (v : VsoHash) (h : List Nat) : VsoHash :=
  if v.blobID.length = 0 then
    ⟨v.buffer, v.pageHashes, seedBytes ++ h⟩
  else
    ⟨v.buffer, v.pageHashes, sha256 (v.blobID ++ [0]) ++ h⟩

/-- `finishBlock`: resolve the pending page hashes in order, concatenate
them, digest the concatenation, clear the pending list and fold the
block digest into the blob id. -/
def finishBlock (v : VsoHash) : VsoHash :=
  updateBlobID ⟨v.buffer, [], v.blobID⟩ (sha256 v.pageHashes.flatten)

/-- `writePage`: submit one page (appending its digest channel), then
finish the block if `pagesPerBlock` pages are pending. -/
def writePage (v : VsoHash) (page : List Nat) : VsoHash :=
  if (v.pageHashes ++ [sha256 page]).length = pagesPerBlock then
    finishBlock ⟨v.buffer, v.pageHashes ++ [sha256 page], v.blobID⟩
  else
    ⟨v.buffer, v.pageHashes ++ [sha256 page], v.blobID⟩

/-- The loop body of `Write`, with explicit fuel (any bound above the
input length keeps it total; the Go loop consumes at least one byte per
iteration).  Returns the final state, the `int` the Go function returns
(the length of the local slice `in` at the `return` statement), and the
returned `error` (always `nil`, modelled as `none`). -/
def writeLoop : Nat → VsoHash → List Nat → VsoHash × Nat × Option String
  | 0, v, l => (v, l.length, none)
  | fuel + 1, v, l =>
    if l.length + v.buffer.length < PageSize then
      (⟨v.buffer ++ l, v.pageHashes, v.blobID⟩, l.length, none)
    else if 0 < v.buffer.length then
      let v1 := writePage v (v.buffer ++ l.take (PageSize - v.buffer.length))
      writeLoop fuel ⟨[], v1.pageHashes, v1.blobID⟩ (l.drop (PageSize - v.buffer.length))
    else
      writeLoop fuel (writePage v (l.take PageSize)) (l.drop PageSize)

/-- `Write`: feed bytes to the hasher one page at a time. -/
def Write (v : VsoHash) (l : List Nat) : VsoHash × Nat × Option String :=
  writeLoop (l.length + 1) v l

/-- The state after a `Write` call. -/
def writeState (v : VsoHash) (l : List Nat) : VsoHash :=
  (Write v l).1

/-- `sum`: calculate and return the current hash, destructively updating
the state (the partial page is submitted, the last block finished, and
the final marker byte appended to the blob id). -/
def sum (v : VsoHash) : VsoHash × List Nat :=
  let v1 := if v.buffer.length ≠ 0 then writePage v v.buffer else v
  let v2 := if 0 < v1.pageHashes.length ∨ v1.blobID.length = 0 then finishBlock v1 else v1
  (⟨v2.buffer, v2.pageHashes, v2.blobID ++ [1]⟩, sha256 (v2.blobID ++ [1]) ++ [0])

/-- `Reset`: empty the pending page hashes, the blob id and the buffer. -/
def Reset (_ : VsoHash) : VsoHash :=
  { pageHashes := [], blobID := [], buffer := [] }

/-- The package-level one-shot function `Sum`: write everything to a
fresh hasher and finish. -/
def Sum (l : List Nat) : List Nat :=
  (sum (Write initState l).1).2

example : Sum [] =
    [0x1e, 0x57, 0xcf, 0x27, 0x92, 0xa9, 0x00, 0xd0, 0x6c, 0x1c, 0xdf, 0xb3, 0xc4, 0x53, 0xf3, 0x5b,
     0xc8, 0x6f, 0x72, 0x78, 0x8a, 0xa9, 0x72, 0x4c, 0x96, 0xc9, 0x29, 0xd1, 0xcc, 0x6b, 0x45, 0x6a,
     0x00] := by
  decide

example : Sum [0] =
    [0x3d, 0xa3, 0x21, 0x50, 0xb5, 0xe6, 0x9b, 0x54, 0xe7, 0xad, 0x17, 0x65, 0xd9, 0x57, 0x3b, 0xc5,
     0xe6, 0xe0, 0x5d, 0x3b, 0x65, 0x29, 0x55, 0x6c, 0x1b, 0x4a, 0x43, 0x6a, 0x76, 0xa5, 0x11, 0xf4,
     0x00] := by
  decide

/-! ## Basic state lemmas -/

theorem PageSize_pos : 0 < PageSize := by decide

theorem sha256_length (msg : List Nat) : (sha256 msg).length = 32 := by
  simp [sha256, wordBytes]

theorem updateBlobID_buffer (v : VsoHash) (h : List Nat) :
    (updateBlobID v h).buffer = v.buffer := by
  unfold updateBlobID; split <;> rfl

theorem updateBlobID_pageHashes (v : VsoHash) (h : List Nat) :
    (updateBlobID v h).pageHashes = v.pageHashes := by
  unfold updateBlobID; split <;> rfl

theorem finishBlock_buffer (v : VsoHash) : (finishBlock v).buffer = v.buffer := by
  unfold finishBlock; rw [updateBlobID_buffer]

theorem finishBlock_pageHashes (v : VsoHash) : (finishBlock v).pageHashes = [] := by
  unfold finishBlock; rw [updateBlobID_pageHashes]

theorem writePage_buffer (v : VsoHash) (p : List Nat) :
    (writePage v p).buffer = v.buffer := by
  unfold writePage; split
  · rw [finishBlock_buffer]
  · rfl

/-- The buffer-independent part of the state: the pending page hashes
and the blob id, which is all that `writePage` reads and writes besides
preserving the buffer. -/
def core (v : VsoHash) : List (List Nat) × List Nat :=
  (v.pageHashes, v.blobID)

theorem writePage_setBuffer (v : VsoHash) (c p : List Nat) :
    writePage ⟨c, v.pageHashes, v.blobID⟩ p
      = ⟨c, (writePage v p).pageHashes, (writePage v p).blobID⟩ := by
  cases v with
  | mk b ph bl =>
    simp only [writePage, finishBlock, updateBlobID]
    split_ifs <;> rfl

/-! ## Page chunking of the input stream

`pages l` is the list of full `PageSize` pages the write loop carves off
the front of the stream `l`, and `restPart l` is the strictly shorter
final remainder it leaves in the page buffer. -/

def pages (l : List Nat) : List (List Nat) :=
  if _h : PageSize ≤ l.length then l.take PageSize :: pages (l.drop PageSize) else []
termination_by l.length
decreasing_by
  have := PageSize_pos
  simp only [List.length_drop]
  omega

def restPart (l : List Nat) : List Nat :=
  if _h : PageSize ≤ l.length then restPart (l.drop PageSize) else l
termination_by l.length
decreasing_by
  have := PageSize_pos
  simp only [List.length_drop]
  omega

theorem pages_small {l : List Nat} (h : l.length < PageSize) : pages l = [] := by
  conv_lhs => rw [pages]
  rw [dif_neg (by omega)]

theorem pages_big {l : List Nat} (h : PageSize ≤ l.length) :
    pages l = l.take PageSize :: pages (l.drop PageSize) := by
  conv_lhs => rw [pages]
  rw [dif_pos h]

theorem restPart_small {l : List Nat} (h : l.length < PageSize) : restPart l = l := by
  conv_lhs => rw [restPart]
  rw [dif_neg (by omega)]

theorem restPart_big {l : List Nat} (h : PageSize ≤ l.length) :
    restPart l = restPart (l.drop PageSize) := by
  conv_lhs => rw [restPart]
  rw [dif_pos h]

theorem pages_nil : pages ([] : List Nat) = [] :=
  pages_small (by simpa using PageSize_pos)

theorem restPart_nil : restPart ([] : List Nat) = [] :=
  restPart_small (by simpa using PageSize_pos)

theorem restPart_length_aux : ∀ (n : Nat) (l : List Nat), l.length ≤ n →
    (restPart l).length < PageSize := by
  intro n
  induction n with
  | zero =>
    intro l h
    rw [restPart_small (show l.length < PageSize by have := PageSize_pos; omega)]
    have := PageSize_pos
    omega
  | succ n ih =>
    intro l h
    by_cases hl : PageSize ≤ l.length
    · rw [restPart_big hl]
      exact ih _ (by simp only [List.length_drop]; have := PageSize_pos; omega)
    · rw [restPart_small (show l.length < PageSize by omega)]
      omega

theorem restPart_length (l : List Nat) : (restPart l).length < PageSize :=
  restPart_length_aux l.length l (Nat.le_refl _)

theorem pages_append_aux : ∀ (n : Nat) (x y : List Nat), x.length ≤ n →
    pages (x ++ y) = pages x ++ pages (restPart x ++ y) := by
  intro n
  induction n with
  | zero =>
    intro x y h
    have hx : x = [] := List.length_eq_zero.mp (by omega)
    subst hx
    simp [pages_nil, restPart_nil]
  | succ n ih =>
    intro x y h
    by_cases hx : PageSize ≤ x.length
    · have hxy : PageSize ≤ (x ++ y).length := by simp only [List.length_append]; omega
      rw [pages_big hxy, pages_big hx, restPart_big hx,
        List.take_append_of_le_length hx, List.drop_append_of_le_length hx,
        ih (x.drop PageSize) y (by simp only [List.length_drop]; have := PageSize_pos; omega)]
      simp
    · rw [pages_small (show x.length < PageSize by omega),
        restPart_small (show x.length < PageSize by omega)]
      simp

theorem pages_append (x y : List Nat) :
    pages (x ++ y) = pages x ++ pages (restPart x ++ y) :=
  pages_append_aux x.length x y (Nat.le_refl _)

theorem restPart_append_aux : ∀ (n : Nat) (x y : List Nat), x.length ≤ n →
    restPart (x ++ y) = restPart (restPart x ++ y) := by
  intro n
  induction n with
  | zero =>
    intro x y h
    have hx : x = [] := List.length_eq_zero.mp (by omega)
    subst hx
    simp [restPart_nil]
  | succ n ih =>
    intro x y h
    by_cases hx : PageSize ≤ x.length
    · have hxy : PageSize ≤ (x ++ y).length := by simp only [List.length_append]; omega
      rw [restPart_big hxy, restPart_big hx, List.drop_append_of_le_length hx]
      exact ih (x.drop PageSize) y (by simp only [List.length_drop]; have := PageSize_pos; omega)
    · rw [restPart_small (show x.length < PageSize by omega)]

theorem restPart_append (x y : List Nat) :
    restPart (x ++ y) = restPart (restPart x ++ y) :=
  restPart_append_aux x.length x y (Nat.le_refl _)

/-! ## Characterization of the write loop

The loop feeds the stream `v.buffer ++ l` to `writePage` one full page
at a time, in order, and leaves the strictly-short remainder in the
page buffer. -/

/-- Feed a list of completed pages to `writePage` in order. -/
def feedPages (v : VsoHash) (ps : List (List Nat)) : VsoHash :=
  ps.foldl writePage v

theorem feedPages_append (v : VsoHash) (p q : List (List Nat)) :
    feedPages v (p ++ q) = feedPages (feedPages v p) q :=
  List.foldl_append writePage v p q

theorem feedPages_buffer : ∀ (ps : List (List Nat)) (v : VsoHash),
    (feedPages v ps).buffer = v.buffer := by
  intro ps
  induction ps with
  | nil => intro v; rfl
  | cons p ps ih =>
    intro v
    simp only [feedPages, List.foldl_cons] at ih ⊢
    rw [ih, writePage_buffer]

theorem feedPages_core : ∀ (ps : List (List Nat)) (v : VsoHash) (c : List Nat),
    core (feedPages ⟨c, v.pageHashes, v.blobID⟩ ps) = core (feedPages v ps) := by
  intro ps
  induction ps with
  | nil => intro v c; rfl
  | cons p ps ih =>
    intro v c
    simp only [feedPages, List.foldl_cons] at ih ⊢
    rw [writePage_setBuffer]
    exact ih (writePage v p) c

theorem feedPages_core_congr (ps : List (List Nat)) (u w : VsoHash) (h : core u = core w) :
    core (feedPages u ps) = core (feedPages w ps) := by
  have h1 : u.pageHashes = w.pageHashes := congrArg Prod.fst h
  have h2 : u.blobID = w.blobID := congrArg Prod.snd h
  have hu : u = ⟨u.buffer, w.pageHashes, w.blobID⟩ := by
    cases u
    cases h1
    cases h2
    rfl
  rw [hu]
  exact feedPages_core ps w u.buffer

/-- The `int` value the Go `Write` returns: the length of the local
slice `in` at the `return` statement, i.e. the part of the input that
ends up in the page buffer on the final loop iteration. -/
def retValue (bufLen : Nat) (l : List Nat) : Nat :=
  if l.length + bufLen < PageSize then l.length else (bufLen + l.length) % PageSize

theorem retValue_drop (bufLen : Nat) (l : List Nat)
    (h : ¬ l.length + bufLen < PageSize) (hb : bufLen ≤ PageSize) :
    retValue 0 (l.drop (PageSize - bufLen)) = retValue bufLen l := by
  simp only [retValue, List.length_drop, Nat.add_zero, Nat.zero_add]
  have hx : bufLen + l.length = (l.length - (PageSize - bufLen)) + PageSize := by omega
  rw [if_neg h, hx, Nat.add_mod_right]
  split
  · exact (Nat.mod_eq_of_lt (by omega)).symm
  · rfl

/-- Master characterization of the `Write` loop: with sufficient fuel
and a strictly-short page buffer, the loop submits every full page of
`v.buffer ++ l` in order, buffers the strictly-short remainder, reports
the length of the final residual slice, and never returns an error. -/
theorem writeLoop_spec : ∀ (fuel : Nat) (l : List Nat) (v : VsoHash),
    l.length < fuel → v.buffer.length < PageSize →
    core (writeLoop fuel v l).1 = core (feedPages v (pages (v.buffer ++ l)))
    ∧ (writeLoop fuel v l).1.buffer = restPart (v.buffer ++ l)
    ∧ (writeLoop fuel v l).2.1 = retValue v.buffer.length l
    ∧ (writeLoop fuel v l).2.2 = none := by
  intro fuel
  induction fuel with
  | zero => intro l v hf; omega
  | succ fuel ih =>
    intro l v hf hb
    simp only [writeLoop]
    by_cases h1 : l.length + v.buffer.length < PageSize
    · have hlen : (v.buffer ++ l).length < PageSize := by
        simp only [List.length_append]; omega
      rw [if_pos h1, pages_small hlen, restPart_small hlen]
      exact ⟨rfl, rfl, by rw [retValue, if_pos h1], rfl⟩
    · rw [if_neg h1]
      have hlen2 : PageSize ≤ (v.buffer ++ l).length := by
        simp only [List.length_append]; omega
      by_cases h2 : 0 < v.buffer.length
      · rw [if_pos h2]
        have htake : (v.buffer ++ l).take PageSize
            = v.buffer ++ l.take (PageSize - v.buffer.length) := by
          rw [List.take_append_eq_append_take, List.take_of_length_le (by omega)]
        have hdrop : (v.buffer ++ l).drop PageSize = l.drop (PageSize - v.buffer.length) := by
          rw [List.drop_append_eq_append_drop, List.drop_of_length_le (by omega),
            List.nil_append]
        obtain ⟨ih1, ih2, ih3, ih4⟩ := ih (l.drop (PageSize - v.buffer.length))
          ⟨[], (writePage v (v.buffer ++ l.take (PageSize - v.buffer.length))).pageHashes,
            (writePage v (v.buffer ++ l.take (PageSize - v.buffer.length))).blobID⟩
          (by simp only [List.length_drop]; omega)
          (by simpa using PageSize_pos)
        refine ⟨?_, ?_, ?_, ih4⟩
        · rw [ih1, feedPages_core]
          simp only [List.nil_append]
          rw [pages_big hlen2, htake, hdrop]
          simp only [feedPages, List.foldl_cons]
        · rw [ih2]
          simp only [List.nil_append]
          rw [restPart_big hlen2, hdrop]
        · rw [ih3]
          simp only [List.length_nil]
          exact retValue_drop v.buffer.length l h1 (by omega)
      · rw [if_neg h2]
        have hb0 : v.buffer = [] := List.length_eq_zero.mp (by omega)
        have hbl : v.buffer.length = 0 := by rw [hb0]; rfl
        have hPl : PageSize ≤ l.length := by omega
        obtain ⟨ih1, ih2, ih3, ih4⟩ := ih (l.drop PageSize) (writePage v (l.take PageSize))
          (by simp only [List.length_drop]; have := PageSize_pos; omega)
          (by rw [writePage_buffer, hb0]; simpa using PageSize_pos)
        refine ⟨?_, ?_, ?_, ih4⟩
        · rw [ih1, writePage_buffer, hb0]
          simp only [List.nil_append]
          rw [pages_big hPl]
          simp only [feedPages, List.foldl_cons]
        · rw [ih2, writePage_buffer, hb0]
          simp only [List.nil_append]
          rw [restPart_big hPl]
        · rw [ih3, writePage_buffer, hbl]
          have hr := retValue_drop 0 l (by omega) (Nat.zero_le _)
          simp only [Nat.sub_zero] at hr
          exact hr

theorem writeLoop_err : ∀ (fuel : Nat) (v : VsoHash) (l : List Nat),
    (writeLoop fuel v l).2.2 = none := by
  intro fuel
  induction fuel with
  | zero => intro v l; rfl
  | succ fuel ih =>
    intro v l
    simp only [writeLoop]
    split
    · rfl
    · split
      · exact ih _ _
      · exact ih _ _

theorem writeState_buffer_spec (v : VsoHash) (l : List Nat) (hb : v.buffer.length < PageSize) :
    (writeState v l).buffer = restPart (v.buffer ++ l) := by
  rw [writeState, Write]
  exact (writeLoop_spec (l.length + 1) l v (Nat.lt_succ_self _) hb).2.1

theorem writeState_core_spec (v : VsoHash) (l : List Nat) (hb : v.buffer.length < PageSize) :
    core (writeState v l) = core (feedPages v (pages (v.buffer ++ l))) := by
  rw [writeState, Write]
  exact (writeLoop_spec (l.length + 1) l v (Nat.lt_succ_self _) hb).1

theorem write_ret_spec (v : VsoHash) (l : List Nat) (hb : v.buffer.length < PageSize) :
    (Write v l).2.1 = retValue v.buffer.length l := by
  rw [Write]
  exact (writeLoop_spec (l.length + 1) l v (Nat.lt_succ_self _) hb).2.2.1

theorem writeState_inv (v : VsoHash) (l : List Nat) (hb : v.buffer.length < PageSize) :
    (writeState v l).buffer.length < PageSize := by
  rw [writeState_buffer_spec v l hb]
  exact restPart_length _

theorem VsoHash_ext (u w : VsoHash) (hb : u.buffer = w.buffer) (hc : core u = core w) :
    u = w := by
  cases u
  cases w
  simp only [core, Prod.mk.injEq] at hc
  simp_all

/-- `Write` is additive on states with a strictly-short buffer: writing
`a` then `b` reaches the same state as writing `a ++ b`. -/
theorem writeState_append (v : VsoHash) (a b : List Nat) (hb : v.buffer.length < PageSize) :
    writeState (writeState v a) b = writeState v (a ++ b) := by
  have hb1 : (writeState v a).buffer.length < PageSize := writeState_inv v a hb
  apply VsoHash_ext
  · rw [writeState_buffer_spec _ b hb1, writeState_buffer_spec v (a ++ b) hb,
      writeState_buffer_spec v a hb, ← restPart_append, List.append_assoc]
  · rw [writeState_core_spec _ b hb1, writeState_core_spec v (a ++ b) hb,
      writeState_buffer_spec v a hb,
      feedPages_core_congr _ (writeState v a) (feedPages v (pages (v.buffer ++ a)))
        (writeState_core_spec v a hb),
      ← feedPages_append, ← pages_append, List.append_assoc]

theorem writeState_nil (v : VsoHash) (hb : v.buffer.length < PageSize) :
    writeState v [] = v := by
  apply VsoHash_ext
  · rw [writeState_buffer_spec v [] hb, List.append_nil, restPart_small hb]
  · rw [writeState_core_spec v [] hb, List.append_nil, pages_small hb]
    rfl

/-- Writing a list of chunks in order is the same as writing their
concatenation. -/
theorem foldl_writeState (cs : List (List Nat)) : ∀ (v : VsoHash),
    v.buffer.length < PageSize →
    List.foldl writeState v cs = writeState v cs.flatten := by
  induction cs with
  | nil =>
    intro v hb
    rw [List.foldl_nil, List.flatten_nil]
    exact (writeState_nil v hb).symm
  | cons c cs ih =>
    intro v hb
    rw [List.foldl_cons, ih (writeState v c) (writeState_inv v c hb),
      writeState_append v c cs.flatten hb, List.flatten_cons]

theorem initState_buffer_short : initState.buffer.length < PageSize := by
  simpa using PageSize_pos

/-! ## Page-count invariant helpers -/

theorem pagesPerBlock_pos : 0 < pagesPerBlock := by decide

theorem writePage_pageHashes_lt (v : VsoHash) (p : List Nat)
    (h : v.pageHashes.length < pagesPerBlock) :
    (writePage v p).pageHashes.length < pagesPerBlock := by
  rw [writePage]
  by_cases hc : (v.pageHashes ++ [sha256 p]).length = pagesPerBlock
  · rw [if_pos hc, finishBlock_pageHashes]
    simpa using pagesPerBlock_pos
  · rw [if_neg hc]
    have hc2 : ¬ (v.pageHashes.length + 1 = pagesPerBlock) := by simpa using hc
    simp only [List.length_append, List.length_cons, List.length_nil]
    omega

theorem writePage_pageHashes_full (v : VsoHash) (p : List Nat)
    (h : v.pageHashes.length + 1 = pagesPerBlock) :
    (writePage v p).pageHashes = [] := by
  rw [writePage, if_pos (by simpa using h), finishBlock_pageHashes]

theorem feedPages_pages_lt : ∀ (ps : List (List Nat)) (v : VsoHash),
    v.pageHashes.length < pagesPerBlock →
    (feedPages v ps).pageHashes.length < pagesPerBlock := by
  intro ps
  induction ps with
  | nil => intro v h; exact h
  | cons p ps ih =>
    intro v h
    simp only [feedPages, List.foldl_cons] at ih ⊢
    exact ih (writePage v p) (writePage_pageHashes_lt v p h)

theorem writeState_pages_lt (v : VsoHash) (l : List Nat)
    (hp : v.pageHashes.length < pagesPerBlock) (hb : v.buffer.length < PageSize) :
    (writeState v l).pageHashes.length < pagesPerBlock := by
  have h := congrArg Prod.fst (writeState_core_spec v l hb)
  simp only [core] at h
  rw [h]
  exact feedPages_pages_lt _ v hp

/-! ## Finalization helpers -/

theorem sum_length (v : VsoHash) : (sum v).2.length = Size := by
  simp only [sum]
  rw [List.length_append, sha256_length]
  rfl

theorem sum_last (v : VsoHash) : (sum v).2.getLast? = some 0 := by
  simp only [sum]
  exact List.getLast?_concat _

theorem Sum_length (l : List Nat) : (Sum l).length = Size :=
  sum_length _

theorem Sum_last (l : List Nat) : (Sum l).getLast? = some 0 :=
  sum_last _

/-- One-shot computation through a hasher built by `NewParallel`, as the
benchmark harness does: construct, write everything, finish. -/
def computeWith (parallelism : Int) (l : List Nat) : Option (List Nat) :=
  (NewParallel parallelism).map fun v => (sum (Write v l).1).2

/-! ## The claims -/

/-- Claim C1: chunking invariance / one-shot equivalence.  For every
byte sequence and every partition of it into a finite sequence of
chunks, calling `Write` on each chunk in order on a fresh hasher and
then finishing produces the same identifier as the one-shot `Sum`
applied to the whole sequence. -/
theorem c1_chunking_invariance (chunks : List (List Nat)) (bytes : List Nat)
    (h : chunks.flatten = bytes) :
    (sum (List.foldl writeState initState chunks)).2 = Sum bytes := by
  subst h
  rw [foldl_writeState chunks initState initState_buffer_short]
  rfl

theorem c1_chunking_invariance_witness :
    ([[1], [2, 3]] : List (List Nat)).flatten = [1, 2, 3]
    ∧ (sum (List.foldl writeState initState [[1], [2, 3]])).2 = Sum [1, 2, 3] :=
  ⟨rfl, c1_chunking_invariance [[1], [2, 3]] [1, 2, 3] rfl⟩

/-- Claim C2: the chain fold rule.  Folding a block digest into an
empty accumulator writes the seed literal followed by the digest;
folding into a non-empty accumulator replaces it by the digest of the
accumulator followed by a `0x00` byte, then the block digest. -/
theorem c2_chain_fold :
    (∀ (v : VsoHash) (h : List Nat), v.blobID = [] →
      (updateBlobID v h).blobID = seedBytes ++ h)
    ∧ (∀ (v : VsoHash) (h : List Nat), v.blobID ≠ [] →
      (updateBlobID v h).blobID = sha256 (v.blobID ++ [0]) ++ h) := by
  constructor
  · intro v h hv
    rw [updateBlobID, if_pos (by rw [hv]; rfl)]
  · intro v h hv
    rw [updateBlobID, if_neg (by simpa [List.length_eq_zero] using hv)]

theorem c2_chain_fold_witness :
    (initState.blobID = [] ∧ (updateBlobID initState [7]).blobID = seedBytes ++ [7])
    ∧ ((⟨[], [], [9]⟩ : VsoHash).blobID ≠ []
      ∧ (updateBlobID ⟨[], [], [9]⟩ [7]).blobID = sha256 ([9] ++ [0]) ++ [7]) :=
  ⟨⟨rfl, c2_chain_fold.1 initState [7] rfl⟩,
   ⟨by decide, c2_chain_fold.2 ⟨[], [], [9]⟩ [7] (by decide)⟩⟩

/-- Claim C3: finalization.  `sum` first submits any non-empty partial
page, finishes the last block when page hashes are pending or no block
was ever folded, and returns exactly `Size = 33` bytes equal to the
digest of the accumulator followed by `0x01`, concatenated with the
constant byte `0x00`; consequently the last output byte is always
`0x00`, for `sum` on any state and for `Sum` on any input. -/
theorem c3_finalization (v : VsoHash) (bytes : List Nat) :
    (let v1 := if v.buffer.length ≠ 0 then writePage v v.buffer else v
     let v2 := if 0 < v1.pageHashes.length ∨ v1.blobID.length = 0 then finishBlock v1 else v1
     (sum v).2 = sha256 (v2.blobID ++ [1]) ++ [0])
    ∧ (sum v).2.length = Size
    ∧ (sum v).2.getLast? = some 0
    ∧ (Sum bytes).length = Size
    ∧ (Sum bytes).getLast? = some 0 :=
  ⟨rfl, sum_length v, sum_last v, Sum_length bytes, Sum_last bytes⟩

/-- Claim C4: determinism under concurrency.  The one-shot computation
through a hasher constructed with any parallelism at least 1 is
independent of the parallelism value: in this embedding the worker pool
only carries the per-page digests back through order-preserving
channels, so the configured parallelism never reaches the data path. -/
theorem c4_parallelism_independent (p1 p2 : Int) (l : List Nat)
    (h1 : 1 ≤ p1) (h2 : 1 ≤ p2) :
    computeWith p1 l = computeWith p2 l := by
  rw [computeWith, computeWith, NewParallel, NewParallel,
    if_neg (by omega), if_neg (by omega)]

theorem c4_parallelism_independent_witness :
    (1 ≤ (1 : Int)) ∧ (1 ≤ (8 : Int)) ∧ computeWith 1 [5] = computeWith 8 [5] :=
  ⟨by decide, by decide, c4_parallelism_independent 1 8 [5] (by decide) (by decide)⟩

/-- Claim C5: the empty block and the empty input.  Finishing a block
with no pending page hashes folds `sha256 []` (the digest of the empty
byte string) into the blob id, and the one-shot hash of a zero-length
input is the fixed 33-byte constant
`1e57cf2792a900d06c1cdfb3c453f35bc86f72788aa9724c96c929d1cc6b456a00`. -/
theorem c5_empty_block :
    (∀ v : VsoHash, v.pageHashes = [] → finishBlock v = updateBlobID v (sha256 []))
    ∧ Sum [] =
      [0x1e, 0x57, 0xcf, 0x27, 0x92, 0xa9, 0x00, 0xd0, 0x6c, 0x1c, 0xdf, 0xb3, 0xc4, 0x53,
       0xf3, 0x5b, 0xc8, 0x6f, 0x72, 0x78, 0x8a, 0xa9, 0x72, 0x4c, 0x96, 0xc9, 0x29, 0xd1,
       0xcc, 0x6b, 0x45, 0x6a, 0x00] := by
  constructor
  · intro v hv
    cases v with
    | mk b ph bl =>
      replace hv : ph = [] := hv
      subst hv
      simp [finishBlock]
  · decide

theorem c5_empty_block_witness :
    initState.pageHashes = []
    ∧ finishBlock initState = updateBlobID initState (sha256 []) :=
  ⟨rfl, c5_empty_block.1 initState rfl⟩

/-- Claim C6: the value `Write` returns.  The claim says `Write`
returns the length of its input slice; the code instead returns the
length of the local slice `in` at the `return` statement, which is the
residual left after carving off full pages.  On a fresh hasher and an
input of exactly `PageSize` bytes every byte is consumed, yet the
returned count is `0`, not `PageSize`. -/
theorem c6_write_return (l : List Nat) (h : l.length = PageSize) :
    (Write initState l).2.1 = 0 ∧ (Write initState l).2.1 ≠ l.length := by
  have hret := write_ret_spec initState l initState_buffer_short
  have h0 : retValue initState.buffer.length l = 0 := by
    rw [retValue, if_neg (by simp [initState]; omega)]
    simp [initState, h, Nat.mod_self]
  rw [hret, h0]
  have := PageSize_pos
  exact ⟨rfl, by omega⟩

theorem c6_write_return_witness :
    (List.replicate PageSize 0).length = PageSize
    ∧ (Write initState (List.replicate PageSize 0)).2.1 = 0 :=
  ⟨by simp, (c6_write_return (List.replicate PageSize 0) (by simp)).1⟩

/-- Claim C7 counterexample: there is no lifecycle enforcement.  After
`sum` on a fresh hasher, a further `Write` succeeds (returns a `nil`
error) and changes the state, and a second `sum` returns a different
identifier rather than failing or returning the cached first result. -/
theorem c7_lifecycle_counterexample :
    (Write (sum initState).1 [0]).2.2 = none
    ∧ (Write (sum initState).1 [0]).1 ≠ (sum initState).1
    ∧ (sum (sum initState).1).2 ≠ (sum initState).2 := by
  refine ⟨rfl, by decide, by decide⟩

/-- Claim C7 as amended: the hasher enforces no lifecycle.  `Write`
never returns an error in any state — including after finalization,
where it silently updates the state — and a second `sum` returns a
different identifier than the first, exactly as the code comments warn
(the caller should not call other functions after `Sum`). -/
theorem c7_lifecycle_amended :
    (∀ (v : VsoHash) (l : List Nat), (Write v l).2.2 = none)
    ∧ (Write (sum initState).1 [0]).1.buffer = [0]
    ∧ (sum (sum initState).1).2 ≠ (sum initState).2 := by
  refine ⟨fun v l => writeLoop_err _ v l, by decide, by decide⟩

/-- Claim C8: construction.  `NewParallel` panics (modelled as `none`,
no hasher returned) exactly when the requested parallelism is not
strictly positive, and returns the fresh state for any parallelism of
at least 1. -/
theorem c8_construction (p : Int) :
    (p ≤ 0 → NewParallel p = none) ∧ (1 ≤ p → NewParallel p = some initState) := by
  constructor
  · intro h
    rw [NewParallel, if_pos h]
  · intro h
    rw [NewParallel, if_neg (by omega)]

theorem c8_construction_witness :
    ((-3 : Int) ≤ 0 ∧ NewParallel (-3) = none)
    ∧ (1 ≤ (5 : Int) ∧ NewParallel 5 = some initState) :=
  ⟨⟨by decide, (c8_construction (-3)).1 (by decide)⟩,
   ⟨by decide, (c8_construction 5).2 (by decide)⟩⟩

/-- Claim C9: the block-boundary invariant.  Starting below
`pagesPerBlock = 32` pending page hashes, `writePage` keeps the count
strictly below 32 — and whenever appending the new page would reach 32
it finishes the block, emptying the pending list — and any `Write`
preserves the strict bound. -/
theorem c9_block_boundary :
    (∀ (v : VsoHash) (p : List Nat), v.pageHashes.length < pagesPerBlock →
      (writePage v p).pageHashes.length < pagesPerBlock
      ∧ (v.pageHashes.length + 1 = pagesPerBlock → (writePage v p).pageHashes = []))
    ∧ (∀ (v : VsoHash) (l : List Nat), v.pageHashes.length < pagesPerBlock →
      v.buffer.length < PageSize →
      (writeState v l).pageHashes.length < pagesPerBlock) :=
  ⟨fun v p h => ⟨writePage_pageHashes_lt v p h, fun hf => writePage_pageHashes_full v p hf⟩,
   fun v l hp hb => writeState_pages_lt v l hp hb⟩

theorem c9_block_boundary_witness :
    (initState.pageHashes.length < pagesPerBlock
      ∧ (writePage initState [1]).pageHashes.length < pagesPerBlock)
    ∧ (initState.buffer.length < PageSize
      ∧ (writeState initState [1, 2]).pageHashes.length < pagesPerBlock) :=
  ⟨⟨by decide, (c9_block_boundary.1 initState [1] (by decide)).1⟩,
   ⟨by decide, c9_block_boundary.2 initState [1, 2] (by decide) (by decide)⟩⟩

/-- Claim C10 (implicit): `Reset` restores the initial state.  For a
hasher in any state — including after `sum` — `Reset` empties the page
buffer, the pending page hashes and the blob id, so any subsequent
sequence of writes followed by `sum` produces the same identifier as on
a freshly constructed hasher. -/
theorem c10_reset (v : VsoHash) (chunks : List (List Nat)) :
    Reset v = initState
    ∧ (sum (List.foldl writeState (Reset v) chunks)).2
      = (sum (List.foldl writeState initState chunks)).2 :=
  ⟨rfl, rfl⟩

end vsohash
